import Mathlib

/-!
# Invoice Genie — verification of the extraction/aggregation core

Shallow embedding of `src/app.py` (hamzji/Invoice_Genie): vendor
classification, invoice-date extraction, purchase-order collection, the
positional-block-scan Paragon line-item parser, aggregation, and the
route-level pipeline.  Python strings are modelled as Lean `String`
(lists of characters); Python floats are modelled as `ℚ` (every numeric
value the program manipulates on the paths specified here is an exact
decimal, so `ℚ` is a faithful carrier); Python regular-expression
matching is modelled by hand-rolled deterministic character scanners,
which coincide with the backtracking semantics for the patterns used
because no character class in those patterns overlaps the literal that
follows it.  `upper`/`strip`/`\s` are modelled on the ASCII range, the
only range the keywords and tokens of the program live in.
-/

namespace InvoiceGenie

/-! ## Character-level utilities -/

/-- ASCII decimal digit, the `\d` class restricted to ASCII (the
patterns in `app.py` only ever need to match ASCII digits). -/
def isDigitCh (c : Char) : Bool := '0' ≤ c && c ≤ '9'

/-- Python's `\s` class / `str.strip` whitespace, ASCII range:
space, tab, newline, carriage return, vertical tab, form feed. -/
def isSpaceCh (c : Char) : Bool :=
  c = ' ' || c = '\t' || c = '\n' || c = '\r' || c = '\x0b' || c = '\x0c'

/-- `str.upper`, ASCII range (maps `a`–`z` to `A`–`Z`). -/
def pyUpper (s : String) : String := ⟨s.data.map Char.toUpper⟩

/-- Does `ns` occur as a prefix of `hs`? -/
def subAt : List Char → List Char → Bool
  | [], _ => true
  | _ :: _, [] => false
  | n :: ns, h :: hs => n = h && subAt ns hs

/-- Does `needle` occur as a contiguous run anywhere in the list? -/
def subScan (needle : List Char) : List Char → Bool
  | [] => needle.isEmpty
  | h :: hs => subAt needle (h :: hs) || subScan needle hs

/-- Python's substring containment `needle in hay`. -/
def containsSub (hay needle : String) : Bool :=
  subScan needle.data hay.data

/-- `str.strip()`: remove leading and trailing whitespace. -/
def pyStrip (s : String) : String :=
  ⟨(s.data.dropWhile isSpaceCh).reverse.dropWhile isSpaceCh |>.reverse⟩

/-- `str.splitlines()` (restricted to `\n` separators): splits on
newlines, yields no trailing empty piece for a trailing newline, and
yields `[]` on the empty string. -/
def splitChars : List Char → List (List Char)
  | [] => []
  | '\n' :: rest => [] :: splitChars rest
  | c :: rest =>
    match splitChars rest with
    | [] => [[c]]
    | piece :: pieces => (c :: piece) :: pieces

/-- `text.splitlines()` as used by `parse_paragon`. -/
def splitlinesPy (s : String) : List String :=
  match s.data with
  | [] => []
  | cs => (splitChars cs).map List.asString

/-- Numeric value of a run of ASCII digits (most significant first). -/
def natOfDigits (ds : List Char) : ℕ :=
  ds.foldl (fun n c => 10 * n + (c.toNat - '0'.toNat)) 0

/-- Match a literal character sequence at the head of the input,
returning the rest on success. -/
def expectLit : List Char → List Char → Option (List Char)
  | [], cs => some cs
  | _ :: _, [] => none
  | p :: ps, c :: cs => if c = p then expectLit ps cs else none

/-- Match a literal character sequence case-insensitively (the pattern
is given uppercased) at the head of the input. -/
def expectLitCI : List Char → List Char → Option (List Char)
  | [], cs => some cs
  | _ :: _, [] => none
  | p :: ps, c :: cs => if c.toUpper = p then expectLitCI ps cs else none

/-! ## `detect_vendor` (app.py lines 67–73) -/

/-- `detect_vendor`: uppercase the text, then keyword precedence —
`"CRT"`/`"PARAGON"` → `"PARAGON"`, else `"PHYSIOL"`/`"PODEYE"` →
`"PHYSIOL"`, else `"UNKNOWN"`. -/
def detect_vendor (text : String) : String :=
  let upper := pyUpper text
  if containsSub upper "CRT" || containsSub upper "PARAGON" then "PARAGON"
  else if containsSub upper "PHYSIOL" || containsSub upper "PODEYE" then "PHYSIOL"
  else "UNKNOWN"

/-- Spec-side notion of case-insensitive keyword occurrence: the keyword
(given uppercased) occurs, as a contiguous run of characters, inside the
uppercased text. -/
def KwOccurs (text kw : String) : Prop :=
  kw.data <:+: (pyUpper text).data

instance (text kw : String) : Decidable (KwOccurs text kw) := by
  unfold KwOccurs; infer_instance

/-- The Paragon signal set fires. -/
def ParagonSignal (t : String) : Prop := KwOccurs t "CRT" ∨ KwOccurs t "PARAGON"

/-- The Physiol signal set fires. -/
def PhysiolSignal (t : String) : Prop := KwOccurs t "PHYSIOL" ∨ KwOccurs t "PODEYE"

instance (t : String) : Decidable (ParagonSignal t) := by
  unfold ParagonSignal; infer_instance

instance (t : String) : Decidable (PhysiolSignal t) := by
  unfold PhysiolSignal; infer_instance

/-! ## `extract_invoice_date` (app.py lines 27–51)

The label regex is `Invoice\s+Date[:\s]+(\d{1,2}[slash or dash]\d{1,2}[slash or dash]\d{4})`,
searched case-insensitively; `re.search` returns the leftmost match.
Each quantifier in the pattern is followed by a literal its class cannot
absorb, so greedy matching without backtracking — except for `\d{1,2}`,
where a following third digit kills the candidate entirely — is exact. -/

/-- A calendar date as produced by `datetime.strptime`. -/
structure PyDate where
  year : ℕ
  month : ℕ
  day : ℕ
  deriving DecidableEq

/-- The `[:\s]` class of the label regex. -/
def isSepCh (c : Char) : Bool := c = ':' || isSpaceCh c

/-- Match `\d{1,2}` followed by the class `[slash or dash]`: the leading digit run
must have length 1 or 2 (a run of three or more digits can never be
completed to a match), then one separator character. -/
def matchD12 (cs : List Char) : Option (List Char × Char × List Char) :=
  let ds := cs.takeWhile isDigitCh
  if ds.length = 1 || ds.length = 2 then
    match cs.dropWhile isDigitCh with
    | c :: rest => if c = '/' || c = '-' then some (ds, c, rest) else none
    | [] => none
  else none

/-- Match `\d{4}` (greedy, so a run of at least four digits yields its
first four). -/
def matchY4 (cs : List Char) : Option (List Char) :=
  let ds := cs.takeWhile isDigitCh
  if 4 ≤ ds.length then some (ds.take 4) else none

/-- Attempt the full label pattern at the current position, returning
the captured date token. -/
def matchLabelAt (cs : List Char) : Option (List Char) :=
  match expectLitCI "INVOICE".data cs with
  | none => none
  | some r1 =>
    if (r1.takeWhile isSpaceCh).isEmpty then none else
    match expectLitCI "DATE".data (r1.dropWhile isSpaceCh) with
    | none => none
    | some r2 =>
      if (r2.takeWhile isSepCh).isEmpty then none else
      match matchD12 (r2.dropWhile isSepCh) with
      | none => none
      | some (d1, s1, r3) =>
        match matchD12 r3 with
        | none => none
        | some (d2, s2, r4) =>
          match matchY4 r4 with
          | none => none
          | some y => some (d1 ++ s1 :: (d2 ++ s2 :: y))

/-- `re.search`: leftmost position at which the label pattern matches
(the pattern never matches the empty input, since it starts with a
literal). -/
def searchDate : List Char → Option (List Char)
  | [] => none
  | c :: cs =>
    match matchLabelAt (c :: cs) with
    | some tok => some tok
    | none => searchDate cs

/-- Gregorian leap year, as `datetime` uses. -/
def isLeap (y : ℕ) : Bool := (y % 4 = 0 && y % 100 ≠ 0) || y % 400 = 0

/-- Days in a month, as `datetime` validates. -/
def daysInMonth (y m : ℕ) : ℕ :=
  if m = 2 then (if isLeap y then 29 else 28)
  else if m = 4 || m = 6 || m = 9 || m = 11 then 30
  else 31

/-- `datetime(year, month, day)` range validation (`MINYEAR = 1`; a
four-digit year is always `≤ MAXYEAR`). -/
def mkValidDate (y m d : ℕ) : Option PyDate :=
  if 1 ≤ y && 1 ≤ m && m ≤ 12 && 1 ≤ d && d ≤ daysInMonth y m then
    some ⟨y, m, d⟩
  else none

/-- The four `strptime` format strings tried by `extract_invoice_date`,
in source order. -/
inductive DateFmt where
  | mdSlash
  | mdDash
  | dmSlash
  | dmDash
  deriving DecidableEq

/-- Separator literal of a format string. -/
def DateFmt.sep : DateFmt → Char
  | .mdSlash => '/'
  | .mdDash => '-'
  | .dmSlash => '/'
  | .dmDash => '-'

/-- Whether the format puts the month before the day. -/
def DateFmt.monthFirst : DateFmt → Bool
  | .mdSlash => true
  | .mdDash => true
  | .dmSlash => false
  | .dmDash => false

/-- `datetime.strptime(raw, fmt)` for the formats above: two 1–2 digit
components separated by the format's literal separator, then exactly
four year digits ending the string, then calendar validation. -/
def strptimeDate (f : DateFmt) (raw : String) : Option PyDate :=
  match matchD12 raw.data with
  | none => none
  | some (a, s1, r1) =>
    if s1 ≠ f.sep then none else
    match matchD12 r1 with
    | none => none
    | some (b, s2, r2) =>
      if s2 ≠ f.sep then none else
      if r2.length = 4 && r2.all isDigitCh then
        let x := natOfDigits a
        let y := natOfDigits b
        if f.monthFirst then mkValidDate (natOfDigits r2) x y
        else mkValidDate (natOfDigits r2) y x
      else none

/-- The `for fmt in (...): try ... break` loop of `extract_invoice_date`,
as the cascade the source writes. -/
def parse_date_token (raw : String) : Option PyDate :=
  match strptimeDate .mdSlash raw with
  | some dt => some dt
  | none =>
    match strptimeDate .mdDash raw with
    | some dt => some dt
    | none =>
      match strptimeDate .dmSlash raw with
      | some dt => some dt
      | none => strptimeDate .dmDash raw

/-- Spec-side order of the format attempts. -/
def dateFormats : List DateFmt := [.mdSlash, .mdDash, .dmSlash, .dmDash]

/-- `f"{dt.year}년 {dt.month}월 {dt.day}일"`. -/
def koreanDate (dt : PyDate) : String :=
  toString dt.year ++ "년 " ++ toString dt.month ++ "월 " ++ toString dt.day ++ "일"

/-- `extract_invoice_date`: `(raw, korean)` pair, both absent when the
label pattern does not occur, only `raw` when no format parses. -/
def extract_invoice_date (text : String) : Option String × Option String :=
  match searchDate text.data with
  | none => (none, none)
  | some tok =>
    let raw := pyStrip ⟨tok⟩
    match parse_date_token raw with
    | none => (some raw, none)
    | some dt => (some raw, some (koreanDate dt))

/-- Spec-side shape predicate for the claim: the token fully matches
`\d{1,2}[slash or dash]\d{1,2}[slash or dash]\d{4}`. -/
def dateTokenShape (s : String) : Bool :=
  match matchD12 s.data with
  | none => false
  | some (_, _, r1) =>
    match matchD12 r1 with
    | none => false
    | some (_, _, r2) => r2.length = 4 && r2.all isDigitCh

/-! ## `extract_po_numbers` (app.py lines 58–61)

`re.findall(r"PO\d{6,20}", text)` collects non-overlapping matches left
to right, each greedy (`\d{6,20}` takes up to twenty digits of the run
at hand); then `sorted(set(po_list))` deduplicates and sorts
lexicographically. -/

/-- Attempt `PO\d{6,20}` at the current position: on success, the token
and the unconsumed rest of the input. -/
def matchPO (l : List Char) : Option (String × List Char) :=
  match l with
  | c1 :: c2 :: rest =>
    if c1 = 'P' && c2 = 'O' then
      let ds := rest.takeWhile isDigitCh
      if 6 ≤ ds.length then
        some (⟨'P' :: 'O' :: ds.take 20⟩, ds.drop 20 ++ rest.dropWhile isDigitCh)
      else none
    else none
  | _ => none

/-- `re.findall`: scan left to right, emitting each non-overlapping
match and resuming after it, else advancing one character (the pattern
never matches the empty input). -/
def poScan (l : List Char) : List String :=
  match l with
  | [] => []
  | c :: cs =>
    match h : matchPO (c :: cs) with
    | some tr => tr.1 :: poScan tr.2
    | none => poScan cs
termination_by l.length
decreasing_by
  · simp only [matchPO] at h
    split at h
    · rename_i c1 c2 rest heq
      split at h
      · split at h
        · simp only [Option.some.injEq] at h
          have hsplit : (rest.takeWhile isDigitCh).length
              + (rest.dropWhile isDigitCh).length = rest.length := by
            conv_rhs => rw [← List.takeWhile_append_dropWhile (p := isDigitCh) (l := rest)]
            rw [List.length_append]
          have h2 : tr.2 = (rest.takeWhile isDigitCh).drop 20
              ++ rest.dropWhile isDigitCh := by rw [← h]
          rw [h2, heq]
          simp only [List.length_append, List.length_drop, List.length_cons]
          omega
        · exact absurd h (by simp)
      · exact absurd h (by simp)
    · exact absurd h (by simp)
  · simp only [List.length_cons]
    omega

/-- All `PO\d{6,20}` matches of the text, in order of occurrence. -/
def findAllPO (text : String) : List String := poScan text.data

/-- `sorted(set(po_list))`: the distinct matches in ascending
lexicographic order. -/
def extract_po_numbers (text : String) : List String :=
  List.insertionSort (· ≤ ·) (findAllPO text).dedup

/-! ## `parse_paragon` (app.py lines 81–154): positional block scan -/

/-- A per-key running total: accumulated quantity and amount. -/
structure Entry where
  qty : ℚ
  amount : ℚ
  deriving DecidableEq

/-- The quantity cell of an emitted row: `int(q)` when the accumulated
quantity is integral, the float itself otherwise. -/
inductive QtyDisplay where
  | int (n : ℤ)
  | dec (q : ℚ)
  deriving DecidableEq

/-- Numeric value of a displayed quantity (Python sums the displayed
cells, mixing `int` and `float`). -/
def QtyDisplay.val : QtyDisplay → ℚ
  | .int n => (n : ℚ)
  | .dec q => q

/-- One emitted line-item summary. -/
structure Row where
  item : String
  qty : QtyDisplay
  amount : ℚ
  deriving DecidableEq

/-- The value `parse_paragon` returns. -/
structure ParsedParagon where
  vendor : String
  rows : List Row
  total_qty : ℚ
  total_amount : ℚ
  deriving DecidableEq

/-- First-match lookup in the accumulator (the `defaultdict` holds at
most one entry per key, so first-match is exact). -/
def lookupAcc (acc : List (String × Entry)) (k : String) : Option Entry :=
  match acc with
  | [] => none
  | (k2, e) :: rest => if k2 = k then some e else lookupAcc rest k

/-- `grouped[key]["qty"] += q; grouped[key]["amount"] += a` on the
`defaultdict(lambda: {"qty": 0.0, "amount": 0.0})`. -/
def updAcc (acc : List (String × Entry)) (k : String) (q a : ℚ) : List (String × Entry) :=
  match acc with
  | [] => [(k, ⟨q, a⟩)]
  | (k2, e) :: rest =>
    if k2 = k then (k2, ⟨e.qty + q, e.amount + a⟩) :: rest
    else (k2, e) :: updAcc rest k q a

/-- `lines[i]` (every index the parser uses is in range; out-of-range
reads default to the empty string, which no pattern matches). -/
def lineAt (lines : List String) (i : ℕ) : String := lines.getD i ""

/-- `for j in range(i + 1, min(i + 4, len(lines))): if "CRT100" in
lines[j]` — the anchor-confirmation window (case-sensitive). -/
def anchorConfirmed (lines : List String) (i : ℕ) : Bool :=
  (List.range' (i + 1) (min (i + 4) lines.length - (i + 1))).any
    fun j => containsSub (lineAt lines j) "CRT100"

/-- The anchor indices `qty_indices`: lines whose stripped content is
exactly `"1.00"`, confirmed by a `"CRT100"` within the next three
lines. -/
def qtyIndices (lines : List String) : List ℕ :=
  (List.range lines.length).filter
    fun i => pyStrip (lineAt lines i) == "1.00" && anchorConfirmed lines i

/-- Each anchor opens a block extending to the next anchor or to the end
of the text: the `(block_start, block_end)` pairs. -/
def blockBounds : List ℕ → ℕ → List (ℕ × ℕ)
  | [], _ => []
  | q :: rest, len => (q, rest.headD len) :: blockBounds rest len

/-- `lines[block_start:block_end]`. -/
def blockSlice (lines : List String) (s e : ℕ) : List String :=
  (lines.drop s).take (e - s)

/-- `"\n".join(block_lines).upper()` as a character list. -/
def upperJoin (ls : List String) : List Char :=
  (String.intercalate "\n" ls).data.map Char.toUpper

/-- Attempt `CRT\s*100\s*DA` at the current position (each `\s*` is
followed by a character it cannot absorb, so greedy matching is
exact). -/
def matchDAAt (cs : List Char) : Bool :=
  match expectLit "CRT".data cs with
  | none => false
  | some r1 =>
    match expectLit "100".data (r1.dropWhile isSpaceCh) with
    | none => false
    | some r2 => (expectLit "DA".data (r2.dropWhile isSpaceCh)).isSome

/-- `re.search(r"CRT\s*100\s*DA", ...)`: does the pattern match at some
position (it never matches the empty input)? -/
def scanDA : List Char → Bool
  | [] => false
  | c :: cs => matchDAAt (c :: cs) || scanDA cs

/-- Product-type classification of a block: `"CRT 100 DA"` when the DA
pattern occurs in the uppercased joined block, else `"CRT 100"`. -/
def blockKey (lines : List String) (s e : ℕ) : String :=
  if scanDA (upperJoin (blockSlice lines s e)) then "CRT 100 DA" else "CRT 100"

/-- The `[\d,]` class of the money pattern. -/
def isDigitComma (c : Char) : Bool := isDigitCh c || c = ','

/-- `re.match(r"^\d[\d,]*\.\d{2}$", s)`: a digit, a run of digits and
commas, a dot, exactly two digits, end of string. -/
def matchMoney (cs : List Char) : Bool :=
  match cs with
  | [] => false
  | c :: rest =>
    if isDigitCh c then
      match rest.dropWhile isDigitComma with
      | '.' :: d1 :: d2 :: [] => isDigitCh d1 && isDigitCh d2
      | _ => false
    else false

/-- `float(num_str.replace(",", ""))` on a string of the money shape. -/
def moneyVal (cs : List Char) : ℚ :=
  let cs2 := cs.filter fun c => c ≠ ','
  let ip := cs2.takeWhile isDigitCh
  match cs2.dropWhile isDigitCh with
  | _ :: f1 :: f2 :: _ => (natOfDigits ip : ℚ) + (natOfDigits [f1, f2] : ℚ) / 100
  | _ => (natOfDigits ip : ℚ)

/-- The money value of line `k`, when its stripped content matches the
money pattern. -/
def moneyOfLine (lines : List String) (k : ℕ) : Option ℚ :=
  let ns := pyStrip (lineAt lines k)
  if matchMoney ns.data then some (moneyVal ns.data) else none

/-- `amount_candidates`: the money values of the stripped lines with
index in `range(block_start + 1, block_end)`, in order. -/
def amountCandidates (lines : List String) (s e : ℕ) : List ℚ :=
  (List.range' (s + 1) (e - (s + 1))).filterMap (moneyOfLine lines)

/-- `final_amount = amount_candidates[-1] if amount_candidates else 0.0`. -/
def blockAmount (lines : List String) (s e : ℕ) : ℚ :=
  (amountCandidates lines s e).getLast?.getD 0

/-- Model of Python `float(s)` restricted to plain decimal literals
(optional sign, integer digits, optional fractional part) — the only
shape this program ever feeds it. -/
def parseFloatQ (s : String) : Option ℚ :=
  let sc : ℚ × List Char :=
    match s.data with
    | '-' :: r => (-1, r)
    | '+' :: r => (1, r)
    | cs => (1, cs)
  let ip := sc.2.takeWhile isDigitCh
  match sc.2.dropWhile isDigitCh with
  | [] => if ip.isEmpty then none else some (sc.1 * (natOfDigits ip : ℚ))
  | '.' :: fr =>
    if fr.all isDigitCh && !(ip.isEmpty && fr.isEmpty) then
      some (sc.1 * ((natOfDigits ip : ℚ) + (natOfDigits fr : ℚ) / 10 ^ fr.length))
    else none
  | _ => none

/-- `try: qty_val = float(lines[qidx].strip()) except ValueError:
qty_val = 1.0`. -/
def blockQty (lines : List String) (qidx : ℕ) : ℚ :=
  (parseFloatQ (pyStrip (lineAt lines qidx))).getD 1

/-- The confirmed blocks of the document. -/
def confirmedBlocks (lines : List String) : List (ℕ × ℕ) :=
  blockBounds (qtyIndices lines) lines.length

/-- The accumulation loop over blocks. -/
def accumulateBlocks (lines : List String) :
    List (ℕ × ℕ) → List (String × Entry) → List (String × Entry)
  | [], acc => acc
  | (s, e) :: rest, acc =>
    accumulateBlocks lines rest
      (updAcc acc (blockKey lines s e) (blockQty lines s) (blockAmount lines s e))

/-- The `grouped` accumulator `parse_paragon` builds from the text. -/
def paragonAcc (text : String) : List (String × Entry) :=
  accumulateBlocks (splitlinesPy text) (confirmedBlocks (splitlinesPy text)) []

/-- `int(q) if float(q).is_integer() else q`. -/
def qtyDisplayOf (q : ℚ) : QtyDisplay :=
  if q.den = 1 then .int q.num else .dec q

/-- The fixed display order of canonical keys. -/
def canonicalKeys : List String := ["CRT 100", "CRT 100 DA"]

/-- The `rows` construction loop: one row per canonical key that has an
accumulated entry, in display order. -/
def buildRows (acc : List (String × Entry)) : List Row :=
  canonicalKeys.filterMap fun k =>
    (lookupAcc acc k).map fun e => ⟨k, qtyDisplayOf e.qty, e.amount⟩

/-- The aggregation step: rows plus totals summed over the rows. -/
def aggregateParagon (acc : List (String × Entry)) : ParsedParagon :=
  let rows := buildRows acc
  { vendor := "Paragon"
    rows := rows
    total_qty := (rows.map fun r => r.qty.val).sum
    total_amount := (rows.map fun r => r.amount).sum }

/-- `parse_paragon`. -/
def parse_paragon (text : String) : ParsedParagon :=
  aggregateParagon (paragonAcc text)

/-- Spec-side amount for claim C7, read as written: the last money token
among the stripped lines of the whole block `range(block_start,
block_end)` — anchor line included. -/
def claimBlockAmount (lines : List String) (s e : ℕ) : ℚ :=
  (((List.range' s (e - s)).filterMap (moneyOfLine lines)).getLast?).getD 0

/-! ## The route-level pipeline (app.py lines 510–536)

The POST handler, from the point where the extracted text is in hand:
date and PO extraction, vendor dispatch, result assembly.  `app.py`
calls `parse_physiol` on the `"PHYSIOL"` branch but defines no such
function anywhere, so Python raises `NameError` there; the model records
that as an exceptional outcome. -/

/-- A Python exception escaping the core. -/
inductive PyExc where
  | nameError (missing : String)
  deriving DecidableEq

/-- The template variables the handler fills in. -/
structure PipeResult where
  invoice_date_raw : Option String
  invoice_date_kr : Option String
  po_numbers : List String
  vendor : Option String
  rows : Option (List Row)
  total_qty : Option ℚ
  total_amount : Option ℚ
  error : Option String
  deriving DecidableEq

/-- `"❌ 지원되지 않는 인보이스 형식입니다."` -/
def msgUnsupported : String := "❌ 지원되지 않는 인보이스 형식입니다."

/-- `"❌ CRT 100 / CRT 100 DA 품목을 찾지 못했습니다."` -/
def msgNoItems : String := "❌ CRT 100 / CRT 100 DA 품목을 찾지 못했습니다."

/-- The handler body from `text` onward (no prior `extract_text`
error). -/
def run_core (text : String) : Except PyExc PipeResult :=
  let d := extract_invoice_date text
  let po := extract_po_numbers text
  let vt := detect_vendor text
  if vt = "PARAGON" then
    let parsed := parse_paragon text
    Except.ok
      { invoice_date_raw := d.1
        invoice_date_kr := d.2
        po_numbers := po
        vendor := some parsed.vendor
        rows := some parsed.rows
        total_qty := some parsed.total_qty
        total_amount := some parsed.total_amount
        error := if parsed.rows.isEmpty then some msgNoItems else none }
  else if vt = "PHYSIOL" then
    Except.error (PyExc.nameError "parse_physiol")
  else
    Except.ok
      { invoice_date_raw := d.1
        invoice_date_kr := d.2
        po_numbers := po
        vendor := none
        rows := none
        total_qty := none
        total_amount := none
        error := some msgUnsupported }

/-! ## Line-scan strategy (not present under `src/`)

The repository's inline-row Paragon layout is handled by a sibling copy
of the scaffold that is not among the provided sources; the spec (§4.4,
line-scan strategy) describes it, and claim C6's scenario exercises it. -/

/-- Leading numeric token of a line: after optional whitespace, a digit
run with an optional fractional part. -/
def leadingQty (cs : List Char) : Option ℚ :=
  let cs2 := cs.dropWhile isSpaceCh
  let ip := cs2.takeWhile isDigitCh
  if ip.isEmpty then none
  else
    match cs2.dropWhile isDigitCh with
    | '.' :: more =>
      let fr := more.takeWhile isDigitCh
      some ((natOfDigits ip : ℚ) + (natOfDigits fr : ℚ) / 10 ^ fr.length)
    | _ => some (natOfDigits ip : ℚ)

/-- Attempt a `\d+\.\d{2,}` token at the current position: value and
unconsumed rest. -/
def matchAmtAt (cs : List Char) : Option (ℚ × List Char) :=
  let ip := cs.takeWhile isDigitCh
  if ip.isEmpty then none
  else
    match cs.dropWhile isDigitCh with
    | '.' :: more =>
      let fr := more.takeWhile isDigitCh
      if 2 ≤ fr.length then
        some ((natOfDigits ip : ℚ) + (natOfDigits fr : ℚ) / 10 ^ fr.length,
          more.dropWhile isDigitCh)
      else none
    | _ => none

/-- All non-overlapping `\d+\.\d{2,}` tokens of a line, left to right. -/
def amtScan (l : List Char) : List ℚ :=
  match l with
  | [] => []
  | c :: cs =>
    match h : matchAmtAt (c :: cs) with
    | some vr => vr.1 :: amtScan vr.2
    | none => amtScan cs
termination_by l.length
decreasing_by
  · simp only [matchAmtAt] at h
    split at h
    · exact absurd h (by simp)
    · split at h
      · rename_i more hdw
        split at h
        · simp only [Option.some.injEq] at h
          have h2 : vr.2 = more.dropWhile isDigitCh := by rw [← h]
          rw [h2]
          apply Nat.lt_of_lt_of_le (m := ('.' :: more).length)
          · have h7 := (List.dropWhile_sublist (l := more) isDigitCh).length_le
            simp only [List.length_cons]
            omega
          · rw [← hdw]
            exact (List.dropWhile_sublist isDigitCh).length_le
        · exact absurd h (by simp)
      · exact absurd h (by simp)
  · simp only [List.length_cons]
    omega

/-- Modelled from the spec: one step of the line-scan strategy (§4.4),
whose source file is not among the provided sources.  Keep the line only
if its uppercased content contains both `"CRT"` and `"100"`; quantity is
the leading numeric token (no leading number skips the line); amount is
the last `\d+\.\d{2,}` token (none skips the line); the key is the DA
variant exactly when the uppercased line contains `"DA"`. -/
def linescanLine (acc : List (String × Entry)) (line : String) : List (String × Entry) :=
  let u := (pyUpper line).data
  if subScan "CRT".data u && subScan "100".data u then
    match leadingQty line.data with
    | none => acc
    | some q =>
      match (amtScan line.data).getLast? with
      | none => acc
      | some a =>
        updAcc acc (if subScan "DA".data u then "CRT 100 DA" else "CRT 100") q a
  else acc

/-- Modelled from the spec: the line-scan Paragon strategy (§4.4), fold
of `linescanLine` over the lines, then the shared aggregation step. -/
def parse_paragon_linescan (text : String) : ParsedParagon :=
  aggregateParagon ((splitlinesPy text).foldl linescanLine [])

/-!
# Theorems

## Substring scanner correctness
-/

theorem subAt_iff (ns hs : List Char) : subAt ns hs = true ↔ ns <+: hs := by
  induction ns generalizing hs with
  | nil => simp [subAt]
  | cons n ns ih =>
    cases hs with
    | nil => simp [subAt]
    | cons h hs => simp [subAt, List.cons_prefix_cons, ih, and_comm]

theorem subScan_iff (ns hs : List Char) : subScan ns hs = true ↔ ns <:+: hs := by
  induction hs with
  | nil => simp [subScan, List.isEmpty_iff]
  | cons h hs ih => simp [subScan, subAt_iff, ih, List.infix_cons_iff]

theorem containsSub_iff (hay needle : String) :
    containsSub hay needle = true ↔ needle.data <:+: hay.data :=
  subScan_iff needle.data hay.data

/-! ## C2 — vendor classification -/

/-- C2: for every input text, vendor classification is a case-insensitive
substring match with fixed precedence — `"CRT"`/`"PARAGON"` give Paragon,
else `"PHYSIOL"`/`"PODEYE"` give Physiol, else Unknown; in particular a
text containing keywords of both signal sets classifies as Paragon. -/
theorem vendor_classification_correct (t : String) :
    (detect_vendor t = "PARAGON" ↔ ParagonSignal t) ∧
    (detect_vendor t = "PHYSIOL" ↔ ¬ParagonSignal t ∧ PhysiolSignal t) ∧
    (detect_vendor t = "UNKNOWN" ↔ ¬ParagonSignal t ∧ ¬PhysiolSignal t) ∧
    (ParagonSignal t → PhysiolSignal t → detect_vendor t = "PARAGON") := by
  have hp : (containsSub (pyUpper t) "CRT" || containsSub (pyUpper t) "PARAGON") = true
      ↔ ParagonSignal t := by
    simp only [Bool.or_eq_true, containsSub_iff, ParagonSignal, KwOccurs]
  have hph : (containsSub (pyUpper t) "PHYSIOL" || containsSub (pyUpper t) "PODEYE") = true
      ↔ PhysiolSignal t := by
    simp only [Bool.or_eq_true, containsSub_iff, PhysiolSignal, KwOccurs]
  by_cases h1 : ParagonSignal t
  · have e1 : detect_vendor t = "PARAGON" := by
      unfold detect_vendor
      rw [if_pos (hp.mpr h1)]
    refine ⟨⟨fun _ => h1, fun _ => e1⟩, ?_, ?_, fun _ _ => e1⟩
    · rw [e1]
      exact ⟨fun he => absurd he (by decide), fun hP => absurd h1 hP.1⟩
    · rw [e1]
      exact ⟨fun he => absurd he (by decide), fun hP => absurd h1 hP.1⟩
  · by_cases h2 : PhysiolSignal t
    · have e1 : detect_vendor t = "PHYSIOL" := by
        unfold detect_vendor
        rw [if_neg (fun hc => h1 (hp.mp hc)), if_pos (hph.mpr h2)]
      refine ⟨?_, ⟨fun _ => ⟨h1, h2⟩, fun _ => e1⟩, ?_, fun hP _ => absurd hP h1⟩
      · rw [e1]
        exact ⟨fun he => absurd he (by decide), fun hP => absurd hP h1⟩
      · rw [e1]
        exact ⟨fun he => absurd he (by decide), fun hn => absurd h2 hn.2⟩
    · have e1 : detect_vendor t = "UNKNOWN" := by
        unfold detect_vendor
        rw [if_neg (fun hc => h1 (hp.mp hc)), if_neg (fun hc => h2 (hph.mp hc))]
      refine ⟨?_, ?_, ⟨fun _ => ⟨h1, h2⟩, fun _ => e1⟩, fun hP _ => absurd hP h1⟩
      · rw [e1]
        exact ⟨fun he => absurd he (by decide), fun hP => absurd hP h1⟩
      · rw [e1]
        exact ⟨fun he => absurd he (by decide), fun hPh => absurd hPh.2 h2⟩

/-- Witness for C2 at a text containing keywords of both signal sets. -/
theorem vendor_classification_correct_witness :
    ParagonSignal "a CrT b pHysiol" ∧ PhysiolSignal "a CrT b pHysiol" ∧
    detect_vendor "a CrT b pHysiol" = "PARAGON" :=
  ⟨Or.inl (by decide), Or.inl (by decide),
    (vendor_classification_correct "a CrT b pHysiol").2.2.2
      (Or.inl (by decide)) (Or.inl (by decide))⟩

/-! ## C4 — date format priority -/

/-- C4: the raw date token is parsed by trying month/day/year-slash,
month/day/year-dash, day/month/year-slash, day/month/year-dash in that
order, first success winning; `"Invoice Date: 03/04/2025"` therefore
parses with month 3, day 4, and renders as `2025년 3월 4일`. -/
theorem date_format_priority :
    (∀ raw : String,
      parse_date_token raw = dateFormats.findSome? fun f => strptimeDate f raw) ∧
    parse_date_token "03/04/2025" = some ⟨2025, 3, 4⟩ ∧
    extract_invoice_date "Invoice Date: 03/04/2025"
      = (some "03/04/2025", some "2025년 3월 4일") := by
  refine ⟨fun raw => ?_, by decide, rfl⟩
  simp only [parse_date_token, dateFormats, List.findSome?]
  cases h1 : strptimeDate DateFmt.mdSlash raw <;>
    cases h2 : strptimeDate DateFmt.mdDash raw <;>
      cases h3 : strptimeDate DateFmt.dmSlash raw <;>
        cases h4 : strptimeDate DateFmt.dmDash raw <;>
          simp [h1, h2, h3, h4]

/-! ## C1 — aggregation totals invariant -/

/-- C1: for every accumulator mapping fed to the aggregation step, the
totals equal the sums of the corresponding fields over the emitted rows,
and an accumulator with no canonical-key entry yields no rows and zero
totals. -/
theorem aggregation_totals_invariant (acc : List (String × Entry)) :
    (aggregateParagon acc).total_amount
      = ((aggregateParagon acc).rows.map fun r => r.amount).sum ∧
    (aggregateParagon acc).total_qty
      = ((aggregateParagon acc).rows.map fun r => r.qty.val).sum ∧
    (lookupAcc acc "CRT 100" = none → lookupAcc acc "CRT 100 DA" = none →
      (aggregateParagon acc).rows = [] ∧ (aggregateParagon acc).total_qty = 0 ∧
      (aggregateParagon acc).total_amount = 0) := by
  refine ⟨rfl, rfl, fun h1 h2 => ?_⟩
  have hrows : buildRows acc = [] := by
    simp [buildRows, canonicalKeys, h1, h2]
  exact ⟨hrows, by simp [aggregateParagon, hrows], by simp [aggregateParagon, hrows]⟩

/-- Witness for C1 at the empty accumulator. -/
theorem aggregation_totals_invariant_witness :
    lookupAcc [] "CRT 100" = none ∧ lookupAcc [] "CRT 100 DA" = none ∧
    (aggregateParagon []).rows = [] ∧ (aggregateParagon []).total_qty = 0 ∧
    (aggregateParagon []).total_amount = 0 :=
  ⟨rfl, rfl, (aggregation_totals_invariant []).2.2 rfl rfl⟩

/-! ## C8 — quantity display rule -/

/-- C8: an integral accumulated quantity is rendered as an integer, a
non-integral one keeps its decimal value; `12` renders as the integer
`12` and `25/2 = 12.5` stays `12.5`; every emitted row's quantity cell is
the rendering of its accumulated quantity. -/
theorem qty_display_rule :
    (∀ q : ℚ, (q.den = 1 → qtyDisplayOf q = QtyDisplay.int q.num) ∧
      (q.den ≠ 1 → qtyDisplayOf q = QtyDisplay.dec q)) ∧
    qtyDisplayOf 12 = QtyDisplay.int 12 ∧
    qtyDisplayOf (25 / 2 : ℚ) = QtyDisplay.dec (25 / 2 : ℚ) ∧
    (∀ acc r, r ∈ buildRows acc →
      ∃ e, lookupAcc acc r.item = some e ∧ r.qty = qtyDisplayOf e.qty) := by
  refine ⟨fun q => ⟨fun h => ?_, fun h => ?_⟩, by with_unfolding_all decide,
    by with_unfolding_all decide, fun acc r hr => ?_⟩
  · simp [qtyDisplayOf, h]
  · simp [qtyDisplayOf, h]
  · cases h1 : lookupAcc acc "CRT 100" <;> cases h2 : lookupAcc acc "CRT 100 DA" <;>
      simp [buildRows, canonicalKeys, h1, h2] at hr
    · rename_i e2
      subst hr
      exact ⟨e2, h2, rfl⟩
    · rename_i e1
      subst hr
      exact ⟨e1, h1, rfl⟩
    · rename_i e1 e2
      rcases hr with hr | hr <;> subst hr
      · exact ⟨e1, h1, rfl⟩
      · exact ⟨e2, h2, rfl⟩

/-- Witness for C8 at the integral quantity `12`. -/
theorem qty_display_rule_witness :
    (12 : ℚ).den = 1 ∧ qtyDisplayOf 12 = QtyDisplay.int 12 :=
  ⟨by with_unfolding_all decide, (qty_display_rule.1 12).1 (by with_unfolding_all decide)⟩

/-! ## C6 — line-scan end-to-end scenario A -/

/-- C6 (spec-modelled line-scan strategy): the scenario-A document yields
rows `("CRT 100", 2, 40.00)` and `("CRT 100 DA", 1, 70.00)` with totals
3 and 110.00. -/
theorem linescan_scenario_a :
    parse_paragon_linescan
        "PARAGON\n2.00 CRT100 Regular ... 40.00\n1.00 CRT 100 DA widget ... 70.00"
      = { vendor := "Paragon"
          rows := [⟨"CRT 100", QtyDisplay.int 2, 40⟩, ⟨"CRT 100 DA", QtyDisplay.int 1, 70⟩]
          total_qty := 3
          total_amount := 110 } := by
  with_unfolding_all decide

/-! ## C3 — the pipeline raises on the Physiol branch -/

/-- C3 (code bug): the handler calls `parse_physiol`, which `app.py`
never defines, so a text classifying as Physiol raises `NameError`
instead of returning an error as data; an entirely empty input does take
the errors-as-data path, yielding no vendor and the unsupported-format
message without raising. -/
theorem pipeline_raises_on_physiol :
    run_core "PHYSIOL" = Except.error (PyExc.nameError "parse_physiol") ∧
    run_core "" = Except.ok
      { invoice_date_raw := none
        invoice_date_kr := none
        po_numbers := []
        vendor := none
        rows := none
        total_qty := none
        total_amount := none
        error := some msgUnsupported } :=
  ⟨by with_unfolding_all rfl, by with_unfolding_all rfl⟩

/-! ## List helpers for last-match and DA-scan reformulation -/

theorem head?_filterMap {α β : Type _} (f : α → Option β) (l : List α) :
    (l.filterMap f).head? = l.findSome? f := by
  induction l with
  | nil => rfl
  | cons a l ih =>
    cases hfa : f a <;> simp [List.filterMap_cons, List.findSome?_cons, hfa, ih]

theorem getLast?_filterMap {α β : Type _} (f : α → Option β) (l : List α) :
    (l.filterMap f).getLast? = l.reverse.findSome? f := by
  rw [List.getLast?_eq_head?_reverse, ← List.filterMap_reverse, head?_filterMap]

theorem scanDA_iff (cs : List Char) :
    scanDA cs = true ↔ ∃ i, matchDAAt (cs.drop i) = true := by
  induction cs with
  | nil =>
    constructor
    · intro h
      exact absurd h (by decide)
    · rintro ⟨i, h⟩
      rw [List.drop_nil] at h
      exact absurd h (by decide)
  | cons c cs ih =>
    simp only [scanDA, Bool.or_eq_true, ih]
    constructor
    · rintro (h | ⟨j, h⟩)
      · exact ⟨0, h⟩
      · exact ⟨j + 1, h⟩
    · rintro ⟨i, h⟩
      cases i with
      | zero => exact Or.inl h
      | succ j => exact Or.inr ⟨j, h⟩

/-! ## C7 — block amount and classification -/

/-- C7 counterexample: in the document `"1.00\nCRT100"` the single
confirmed block is `(0, 2)`; its only money-shaped stripped line is the
anchor line `"1.00"` itself, so the claim's "last money token in the
block" is 1.00, yet the code scans only `range(block_start + 1,
block_end)` and contributes 0.0. -/
theorem block_amount_counterexample :
    confirmedBlocks (splitlinesPy "1.00\nCRT100") = [(0, 2)] ∧
    blockAmount (splitlinesPy "1.00\nCRT100") 0 2 = 0 ∧
    claimBlockAmount (splitlinesPy "1.00\nCRT100") 0 2 = 1 ∧
    blockAmount (splitlinesPy "1.00\nCRT100") 0 2
      ≠ claimBlockAmount (splitlinesPy "1.00\nCRT100") 0 2 ∧
    (parse_paragon "1.00\nCRT100").rows = [⟨"CRT 100", QtyDisplay.int 1, 0⟩] := by
  with_unfolding_all decide

/-- C7 (amended): for every confirmed block the contributed amount is the
last money-shaped stripped line strictly after the anchor line within the
block (0.0 when there is none), and the block is classified `"CRT 100
DA"` exactly when the whitespace-tolerant `CRT 100 DA` pattern matches at
some position of the uppercased joined block, `"CRT 100"` otherwise. -/
theorem block_amount_amended (lines : List String) (s e : ℕ)
    (hmem : (s, e) ∈ confirmedBlocks lines) :
    blockAmount lines s e
      = (((List.range' (s + 1) (e - (s + 1))).reverse.findSome? (moneyOfLine lines)).getD 0) ∧
    (blockKey lines s e = "CRT 100 DA"
      ↔ ∃ i, matchDAAt ((upperJoin (blockSlice lines s e)).drop i) = true) ∧
    (¬ (∃ i, matchDAAt ((upperJoin (blockSlice lines s e)).drop i) = true)
      → blockKey lines s e = "CRT 100") := by
  refine ⟨?_, ?_, ?_⟩
  · simp only [blockAmount, amountCandidates]
    rw [getLast?_filterMap]
  · rw [blockKey]
    by_cases h : scanDA (upperJoin (blockSlice lines s e)) = true
    · rw [if_pos h]
      exact iff_of_true rfl ((scanDA_iff _).mp h)
    · rw [if_neg h]
      exact iff_of_false (by decide) fun hx => h ((scanDA_iff _).mpr hx)
  · intro hno
    rw [blockKey, if_neg fun hs => hno ((scanDA_iff _).mp hs)]

/-- Witness for C7's amended statement at a block that does have a
post-anchor money line. -/
theorem block_amount_amended_witness :
    ((0, 3) ∈ confirmedBlocks (splitlinesPy "1.00\nCRT100\n58.00")) ∧
    blockAmount (splitlinesPy "1.00\nCRT100\n58.00") 0 3
      = (((List.range' (0 + 1) (3 - (0 + 1))).reverse.findSome?
          (moneyOfLine (splitlinesPy "1.00\nCRT100\n58.00"))).getD 0) := by
  have h := block_amount_amended (splitlinesPy "1.00\nCRT100\n58.00") 0 3
    (by with_unfolding_all decide)
  exact ⟨by with_unfolding_all decide, h.1⟩

/-! ## C9 — anchors always parse to quantity 1 -/

theorem lookupAcc_updAcc (acc : List (String × Entry)) (k k2 : String) (q a : ℚ) :
    lookupAcc (updAcc acc k q a) k2
      = if k2 = k then
          some ⟨((lookupAcc acc k).getD ⟨0, 0⟩).qty + q,
                ((lookupAcc acc k).getD ⟨0, 0⟩).amount + a⟩
        else lookupAcc acc k2 := by
  induction acc with
  | nil =>
    by_cases h : k2 = k
    · subst h
      simp [updAcc, lookupAcc]
    · simp only [updAcc, lookupAcc, if_neg (Ne.symm h), if_neg h]
  | cons p rest ih =>
    rcases p with ⟨k3, e⟩
    by_cases h3 : k3 = k
    · subst h3
      by_cases h2 : k2 = k3
      · subst h2
        simp [updAcc, lookupAcc]
      · simp only [updAcc, if_pos rfl, lookupAcc, if_neg (Ne.symm h2), if_neg h2]
    · by_cases h2 : k3 = k2
      · subst h2
        simp [updAcc, lookupAcc, h3]
      · simp only [updAcc, if_neg h3, lookupAcc, if_neg h2, ih]

theorem blockBounds_start_mem {qis : List ℕ} {len : ℕ} {b : ℕ × ℕ}
    (h : b ∈ blockBounds qis len) : b.1 ∈ qis := by
  induction qis generalizing b with
  | nil => simp [blockBounds] at h
  | cons q rest ih =>
    simp only [blockBounds, List.mem_cons] at h
    rcases h with h | h
    · rw [h]
      exact List.mem_cons_self _ _
    · exact List.mem_cons_of_mem _ (ih h)

theorem accumulate_qty_count (lines : List String) (bs : List (ℕ × ℕ))
    (hq : ∀ b ∈ bs, blockQty lines b.1 = 1) (acc : List (String × Entry)) (k : String) :
    ((lookupAcc (accumulateBlocks lines bs acc) k).getD ⟨0, 0⟩).qty
      = ((lookupAcc acc k).getD ⟨0, 0⟩).qty
        + ((bs.filter fun b => blockKey lines b.1 b.2 = k).length : ℚ) := by
  induction bs generalizing acc with
  | nil => simp [accumulateBlocks]
  | cons b rest ih =>
    rcases b with ⟨s, e⟩
    simp only [accumulateBlocks]
    rw [ih (fun b hb => hq b (List.mem_cons_of_mem _ hb))]
    rw [lookupAcc_updAcc]
    have hq1 : blockQty lines s = 1 := hq (s, e) (List.mem_cons_self _ _)
    by_cases hk : k = blockKey lines s e
    · rw [if_pos hk, List.filter_cons, if_pos (by simp [hk])]
      simp only [Option.getD_some, hq1, List.length_cons, hk]
      push_cast
      ring
    · rw [if_neg hk, List.filter_cons, if_neg (by simp; exact fun hv => hk hv.symm)]

/-- C9: every confirmed anchor line strips to exactly `"1.00"`, whose
float parse succeeds with value 1.0 (so the `ValueError` fallback is
unreachable and every block contributes quantity 1.0), and the
accumulated quantity of each key equals the number of confirmed blocks
classified under it. -/
theorem anchor_quantity_one (lines : List String) :
    (∀ i ∈ qtyIndices lines, pyStrip (lineAt lines i) = "1.00"
      ∧ parseFloatQ (pyStrip (lineAt lines i)) = some 1
      ∧ blockQty lines i = 1) ∧
    (∀ k e, lookupAcc (accumulateBlocks lines (confirmedBlocks lines) []) k = some e →
      e.qty = (((confirmedBlocks lines).filter
        fun b => blockKey lines b.1 b.2 = k).length : ℚ)) := by
  have hstrip : ∀ i ∈ qtyIndices lines, pyStrip (lineAt lines i) = "1.00" := by
    intro i hi
    have hmem := List.of_mem_filter hi
    simp only [Bool.and_eq_true, beq_iff_eq] at hmem
    exact hmem.1
  have hone : parseFloatQ "1.00" = some 1 := by with_unfolding_all decide
  have hq : ∀ i ∈ qtyIndices lines, blockQty lines i = 1 := by
    intro i hi
    rw [blockQty, hstrip i hi, hone]
    rfl
  refine ⟨fun i hi => ⟨hstrip i hi, by rw [hstrip i hi]; exact hone, hq i hi⟩, ?_⟩
  intro k e he
  have hb : ∀ b ∈ confirmedBlocks lines, blockQty lines b.1 = 1 :=
    fun b hbm => hq b.1 (blockBounds_start_mem hbm)
  have hcount := accumulate_qty_count lines (confirmedBlocks lines) hb [] k
  rw [he] at hcount
  simpa [lookupAcc] using hcount

/-- Witness for C9 at a one-block document. -/
theorem anchor_quantity_one_witness :
    (0 ∈ qtyIndices (splitlinesPy "1.00\nCRT100\n58.00")) ∧
    pyStrip (lineAt (splitlinesPy "1.00\nCRT100\n58.00") 0) = "1.00" ∧
    blockQty (splitlinesPy "1.00\nCRT100\n58.00") 0 = 1 ∧
    lookupAcc (accumulateBlocks (splitlinesPy "1.00\nCRT100\n58.00")
        (confirmedBlocks (splitlinesPy "1.00\nCRT100\n58.00")) []) "CRT 100"
      = some ⟨1, 58⟩ ∧
    (1 : ℚ) = (((confirmedBlocks (splitlinesPy "1.00\nCRT100\n58.00")).filter
        fun b => blockKey (splitlinesPy "1.00\nCRT100\n58.00") b.1 b.2 = "CRT 100").length : ℚ) := by
  have h1 := (anchor_quantity_one (splitlinesPy "1.00\nCRT100\n58.00")).1 0
    (by with_unfolding_all decide)
  have h2 := (anchor_quantity_one (splitlinesPy "1.00\nCRT100\n58.00")).2 "CRT 100" ⟨1, 58⟩
    (by with_unfolding_all decide)
  exact ⟨by with_unfolding_all decide, h1.1, h1.2.2, by with_unfolding_all decide, h2⟩

/-! ## C10 — date extractor shape invariant -/

theorem takeWhile_of_all (p : Char → Bool) (l : List Char) (h : l.all p = true) :
    l.takeWhile p = l ∧ l.dropWhile p = [] := by
  induction l with
  | nil => simp
  | cons c cs ih =>
    simp only [List.all_cons, Bool.and_eq_true] at h
    simp [List.takeWhile_cons, List.dropWhile_cons, h.1, ih h.2]

theorem takeWhile_append_boundary (p : Char → Bool) (l r : List Char) (c : Char)
    (hc : p c = false) :
    (l ++ c :: r).takeWhile p = l.takeWhile p
      ∧ (l ++ c :: r).dropWhile p = l.dropWhile p ++ c :: r := by
  induction l with
  | nil => simp [List.takeWhile_cons, List.dropWhile_cons, hc]
  | cons d ds ih =>
    cases hpd : p d <;>
      simp [List.takeWhile_cons, List.dropWhile_cons, hpd, ih]

theorem all_takeWhile (p : Char → Bool) (l : List Char) :
    (l.takeWhile p).all p = true := by
  induction l with
  | nil => simp
  | cons c cs ih =>
    cases hpc : p c <;> simp [List.takeWhile_cons, hpc, ih]

theorem digit_not_space {c : Char} (hd : isDigitCh c = true) : isSpaceCh c = false := by
  simp only [isDigitCh, Bool.and_eq_true, decide_eq_true_eq] at hd
  rcases hd with ⟨h1, h2⟩
  simp only [isSpaceCh, Bool.or_eq_false_iff, decide_eq_false_iff_not]
  refine ⟨⟨⟨⟨⟨?_, ?_⟩, ?_⟩, ?_⟩, ?_⟩, ?_⟩ <;>
    rintro rfl <;> revert h1 h2 <;> decide

theorem matchD12_eval (d : List Char) (sep : Char) (rest : List Char)
    (hd : d.all isDigitCh = true) (hl : d.length = 1 ∨ d.length = 2)
    (hsep : sep = '/' ∨ sep = '-') :
    matchD12 (d ++ sep :: rest) = some (d, sep, rest) := by
  have hsepd : isDigitCh sep = false := by
    rcases hsep with h | h <;> subst h <;> decide
  have hb := takeWhile_append_boundary isDigitCh d rest sep hsepd
  have ha := takeWhile_of_all isDigitCh d hd
  simp only [matchD12, hb.1, hb.2, ha.1, ha.2, List.nil_append]
  rw [if_pos (by rcases hl with h | h <;> simp [h]),
    if_pos (by rcases hsep with h | h <;> simp [h])]

theorem matchD12_inv {cs d : List Char} {sep : Char} {rest : List Char}
    (h : matchD12 cs = some (d, sep, rest)) :
    d.all isDigitCh = true ∧ (d.length = 1 ∨ d.length = 2) ∧ (sep = '/' ∨ sep = '-') := by
  simp only [matchD12] at h
  split at h
  · rename_i hlen
    split at h
    · rename_i c rest2 hdrop
      split at h
      · rename_i hsep
        simp only [Option.some.injEq, Prod.mk.injEq] at h
        obtain ⟨rfl, rfl, rfl⟩ := h
        refine ⟨all_takeWhile isDigitCh cs, ?_, ?_⟩
        · simpa using hlen
        · simpa using hsep
      · exact absurd h (by simp)
    · exact absurd h (by simp)
  · exact absurd h (by simp)

theorem matchY4_inv {cs y : List Char} (h : matchY4 cs = some y) :
    y.length = 4 ∧ y.all isDigitCh = true := by
  simp only [matchY4] at h
  split at h
  · rename_i hlen
    simp only [Option.some.injEq] at h
    subst h
    constructor
    · simp [List.length_take]
      omega
    · rw [List.all_eq_true]
      intro c hc
      exact List.all_eq_true.mp (all_takeWhile isDigitCh cs) c (List.take_subset _ _ hc)
  · exact absurd h (by simp)

theorem matchLabelAt_shape {cs tok : List Char} (h : matchLabelAt cs = some tok) :
    ∃ d1 s1 d2 s2 y, tok = d1 ++ s1 :: (d2 ++ s2 :: y)
      ∧ d1.all isDigitCh = true ∧ (d1.length = 1 ∨ d1.length = 2) ∧ (s1 = '/' ∨ s1 = '-')
      ∧ d2.all isDigitCh = true ∧ (d2.length = 1 ∨ d2.length = 2) ∧ (s2 = '/' ∨ s2 = '-')
      ∧ y.all isDigitCh = true ∧ y.length = 4 := by
  simp only [matchLabelAt] at h
  split at h
  · exact absurd h (by simp)
  · split at h
    · exact absurd h (by simp)
    · split at h
      · exact absurd h (by simp)
      · split at h
        · exact absurd h (by simp)
        · split at h
          · exact absurd h (by simp)
          · rename_i hd1
            split at h
            · exact absurd h (by simp)
            · rename_i hd2
              split at h
              · exact absurd h (by simp)
              · rename_i hy
                simp only [Option.some.injEq] at h
                obtain ⟨ha1, hl1, hs1⟩ := matchD12_inv hd1
                obtain ⟨ha2, hl2, hs2⟩ := matchD12_inv hd2
                obtain ⟨hyl, hya⟩ := matchY4_inv hy
                exact ⟨_, _, _, _, _, h.symm, ha1, hl1, hs1, ha2, hl2, hs2, hya, hyl⟩

theorem searchDate_shape {cs tok : List Char} (h : searchDate cs = some tok) :
    ∃ d1 s1 d2 s2 y, tok = d1 ++ s1 :: (d2 ++ s2 :: y)
      ∧ d1.all isDigitCh = true ∧ (d1.length = 1 ∨ d1.length = 2) ∧ (s1 = '/' ∨ s1 = '-')
      ∧ d2.all isDigitCh = true ∧ (d2.length = 1 ∨ d2.length = 2) ∧ (s2 = '/' ∨ s2 = '-')
      ∧ y.all isDigitCh = true ∧ y.length = 4 := by
  induction cs with
  | nil => simp [searchDate] at h
  | cons c cs ih =>
    rw [searchDate] at h
    split at h
    · rename_i tok2 hm
      simp only [Option.some.injEq] at h
      subst h
      exact matchLabelAt_shape hm
    · exact ih h

theorem pyStrip_of_no_space (l : List Char) (h : ∀ c ∈ l, isSpaceCh c = false) :
    pyStrip ⟨l⟩ = ⟨l⟩ := by
  have hdw : ∀ (m : List Char), (∀ c ∈ m, isSpaceCh c = false) → m.dropWhile isSpaceCh = m := by
    intro m hm
    cases m with
    | nil => rfl
    | cons c cs => simp [List.dropWhile_cons, hm c (List.mem_cons_self _ _)]
  show (⟨(l.dropWhile isSpaceCh).reverse.dropWhile isSpaceCh |>.reverse⟩ : String) = ⟨l⟩
  rw [hdw l h, hdw l.reverse (fun c hc => h c (List.mem_reverse.mp hc)), List.reverse_reverse]

/-- C10: the date extractor's result never has a normalized rendering
without a raw token, and a present raw token is a non-empty string fully
matching the `\d{1,2}[slash or dash]\d{1,2}[slash or dash]\d{4}` shape. -/
theorem date_result_shape (text : String) :
    ((extract_invoice_date text).2.isSome = true
      → (extract_invoice_date text).1.isSome = true) ∧
    (∀ s, (extract_invoice_date text).1 = some s
      → s ≠ "" ∧ dateTokenShape s = true) := by
  rcases hs : searchDate text.data with _ | tok
  · simp [extract_invoice_date, hs]
  · obtain ⟨d1, s1, d2, s2, y, htok, ha1, hl1, hs1, ha2, hl2, hs2, hya, hyl⟩ :=
      searchDate_shape hs
    subst htok
    have hnosp : ∀ c ∈ d1 ++ s1 :: (d2 ++ s2 :: y), isSpaceCh c = false := by
      intro c hc
      simp only [List.mem_append, List.mem_cons] at hc
      rcases hc with hc | rfl | hc | rfl | hc
      · exact digit_not_space (List.all_eq_true.mp ha1 c hc)
      · rcases hs1 with rfl | rfl <;> decide
      · exact digit_not_space (List.all_eq_true.mp ha2 c hc)
      · rcases hs2 with rfl | rfl <;> decide
      · exact digit_not_space (List.all_eq_true.mp hya c hc)
    have hstrip : pyStrip ⟨d1 ++ s1 :: (d2 ++ s2 :: y)⟩ = ⟨d1 ++ s1 :: (d2 ++ s2 :: y)⟩ :=
      pyStrip_of_no_space _ hnosp
    have hne : (⟨d1 ++ s1 :: (d2 ++ s2 :: y)⟩ : String) ≠ "" := by
      intro he
      have h0 : d1 ++ s1 :: (d2 ++ s2 :: y) = [] := congrArg String.data he
      simp at h0
    have hshape : dateTokenShape ⟨d1 ++ s1 :: (d2 ++ s2 :: y)⟩ = true := by
      have e1 := matchD12_eval d1 s1 (d2 ++ s2 :: y) ha1 hl1 hs1
      have e2 := matchD12_eval d2 s2 y ha2 hl2 hs2
      simp [dateTokenShape, e1, e2, hyl, hya]
    refine ⟨?_, ?_⟩
    · intro _
      simp only [extract_invoice_date, hs]
      cases hp : parse_date_token (pyStrip ⟨d1 ++ s1 :: (d2 ++ s2 :: y)⟩) <;> simp [hp]
    · intro s hsome
      have hfst : s = pyStrip ⟨d1 ++ s1 :: (d2 ++ s2 :: y)⟩ := by
        simp only [extract_invoice_date, hs] at hsome
        cases hp : parse_date_token (pyStrip ⟨d1 ++ s1 :: (d2 ++ s2 :: y)⟩) <;>
          rw [hp] at hsome <;> simpa using hsome.symm
      rw [hfst, hstrip]
      exact ⟨hne, hshape⟩

/-- Witness for C10 at a document with a parseable date. -/
theorem date_result_shape_witness :
    (extract_invoice_date "Invoice Date 11/19/2025").2.isSome = true ∧
    (extract_invoice_date "Invoice Date 11/19/2025").1.isSome = true ∧
    (extract_invoice_date "Invoice Date 11/19/2025").1 = some "11/19/2025" ∧
    "11/19/2025" ≠ "" ∧ dateTokenShape "11/19/2025" = true := by
  refine ⟨rfl, (date_result_shape "Invoice Date 11/19/2025").1 rfl, rfl, ?_, ?_⟩
  · exact ((date_result_shape "Invoice Date 11/19/2025").2 "11/19/2025" rfl).1
  · exact ((date_result_shape "Invoice Date 11/19/2025").2 "11/19/2025" rfl).2

/-! ## C5 — purchase-order collector -/

theorem poScan_nil : poScan [] = [] := by
  rw [poScan.eq_def]

theorem poScan_cons (c : Char) (cs : List Char) :
    poScan (c :: cs) = match matchPO (c :: cs) with
      | some tr => tr.1 :: poScan tr.2
      | none => poScan cs := by
  rw [poScan.eq_def]
  split
  · simp_all
  · rename_i c2 cs2 heq
    obtain ⟨rfl, rfl⟩ := heq
    cases hm : matchPO (c :: cs) <;> simp [hm]

theorem matchPO_rest_length {l : List Char} {tr : String × List Char}
    (h : matchPO l = some tr) : tr.2.length < l.length := by
  simp only [matchPO] at h
  split at h
  · rename_i c1 c2 rest
    split at h
    · split at h
      · simp only [Option.some.injEq] at h
        have hsplit : (rest.takeWhile isDigitCh).length
            + (rest.dropWhile isDigitCh).length = rest.length := by
          conv_rhs => rw [← List.takeWhile_append_dropWhile (p := isDigitCh) (l := rest)]
          rw [List.length_append]
        have h2 : tr.2 = (rest.takeWhile isDigitCh).drop 20
            ++ rest.dropWhile isDigitCh := by rw [← h]
        rw [h2]
        simp only [List.length_append, List.length_drop, List.length_cons]
        omega
      · exact absurd h (by simp)
    · exact absurd h (by simp)
  · exact absurd h (by simp)

theorem matchPO_inv {l : List Char} {tr : String × List Char}
    (h : matchPO l = some tr) :
    ∃ ds : List Char, tr.1 = ⟨'P' :: 'O' :: ds⟩ ∧ ds.all isDigitCh = true
      ∧ 6 ≤ ds.length ∧ ds.length ≤ 20 := by
  simp only [matchPO] at h
  split at h
  · rename_i c1 c2 rest
    split at h
    · split at h
      · rename_i hlen
        simp only [Option.some.injEq] at h
        refine ⟨(rest.takeWhile isDigitCh).take 20, ?_, ?_, ?_, ?_⟩
        · rw [← h]
        · rw [List.all_eq_true]
          intro c hc
          exact List.all_eq_true.mp (all_takeWhile isDigitCh rest) c
            (List.take_subset _ _ hc)
        · simp only [List.length_take]
          omega
        · simp only [List.length_take]
          omega
      · exact absurd h (by simp)
    · exact absurd h (by simp)
  · exact absurd h (by simp)

theorem matchPO_boundary (a b : List Char) :
    matchPO (a ++ '\n' :: b) = (matchPO a).map fun tr => (tr.1, tr.2 ++ '\n' :: b) := by
  rcases a with _ | ⟨c1, _ | ⟨c2, rest⟩⟩
  · cases b with
    | nil => rfl
    | cons c2 r => simp [matchPO]
  · simp [matchPO]
  · simp only [List.cons_append, matchPO]
    by_cases hpo : (c1 = 'P' && c2 = 'O') = true
    · rw [if_pos hpo, if_pos hpo]
      have hb := takeWhile_append_boundary isDigitCh rest b '\n' (by decide)
      rw [hb.1, hb.2]
      by_cases hlen : 6 ≤ (rest.takeWhile isDigitCh).length
      · rw [if_pos hlen, if_pos hlen]
        simp [List.append_assoc]
      · rw [if_neg hlen, if_neg hlen]
        rfl
    · rw [if_neg hpo, if_neg hpo]
      rfl

theorem poScan_append (a b : List Char) :
    poScan (a ++ '\n' :: b) = poScan a ++ poScan ('\n' :: b) := by
  have H : ∀ n (a : List Char), a.length ≤ n →
      poScan (a ++ '\n' :: b) = poScan a ++ poScan ('\n' :: b) := by
    intro n
    induction n with
    | zero =>
      intro a ha
      have h0 : a = [] := List.eq_nil_of_length_eq_zero (Nat.le_zero.mp ha)
      subst h0
      simp [poScan_nil]
    | succ n ih =>
      intro a ha
      cases a with
      | nil => simp [poScan_nil]
      | cons c cs =>
        rw [List.cons_append, poScan_cons, poScan_cons c cs]
        have hb2 : matchPO (c :: (cs ++ '\n' :: b))
            = (matchPO (c :: cs)).map fun tr => (tr.1, tr.2 ++ '\n' :: b) := by
          rw [← List.cons_append]
          exact matchPO_boundary (c :: cs) b
        rw [hb2]
        cases hm : matchPO (c :: cs) with
        | none =>
          simp only [Option.map_none']
          have hlen : cs.length ≤ n := by
            simp only [List.length_cons] at ha
            omega
          exact ih cs hlen
        | some tr =>
          simp only [Option.map_some', List.cons_append]
          have hlen : tr.2.length ≤ n := by
            have := matchPO_rest_length hm
            simp only [List.length_cons] at this ha
            omega
          rw [ih tr.2 hlen]
  exact H a.length a le_rfl

theorem poScan_shape {l : List Char} {x : String} (hx : x ∈ poScan l) :
    ∃ ds : List Char, x = ⟨'P' :: 'O' :: ds⟩ ∧ ds.all isDigitCh = true
      ∧ 6 ≤ ds.length ∧ ds.length ≤ 20 := by
  have H : ∀ n (l : List Char), l.length ≤ n → x ∈ poScan l →
      ∃ ds : List Char, x = ⟨'P' :: 'O' :: ds⟩ ∧ ds.all isDigitCh = true
        ∧ 6 ≤ ds.length ∧ ds.length ≤ 20 := by
    intro n
    induction n with
    | zero =>
      intro l hl hm
      have h0 : l = [] := List.eq_nil_of_length_eq_zero (Nat.le_zero.mp hl)
      subst h0
      rw [poScan_nil] at hm
      exact absurd hm (List.not_mem_nil x)
    | succ n ih =>
      intro l hl hm
      cases l with
      | nil =>
        rw [poScan_nil] at hm
        exact absurd hm (List.not_mem_nil x)
      | cons c cs =>
        rw [poScan_cons] at hm
        cases hmt : matchPO (c :: cs) with
        | none =>
          rw [hmt] at hm
          have hlen : cs.length ≤ n := by
            simp only [List.length_cons] at hl
            omega
          exact ih cs hlen hm
        | some tr =>
          rw [hmt] at hm
          rcases List.mem_cons.mp hm with rfl | hm2
          · exact matchPO_inv hmt
          · have hlen : tr.2.length ≤ n := by
              have := matchPO_rest_length hmt
              simp only [List.length_cons] at this hl
              omega
            exact ih tr.2 hlen hm2
  exact H l.length l le_rfl hx

theorem poScan_token {ds : List Char} (hall : ds.all isDigitCh = true)
    (h6 : 6 ≤ ds.length) (h20 : ds.length ≤ 20) :
    poScan ('\n' :: 'P' :: 'O' :: ds) = [⟨'P' :: 'O' :: ds⟩] := by
  rw [poScan_cons]
  have hm1 : matchPO ('\n' :: 'P' :: 'O' :: ds) = none := by
    simp [matchPO]
  rw [hm1]
  rw [poScan_cons]
  have ha := takeWhile_of_all isDigitCh ds hall
  have hm2 : matchPO ('P' :: 'O' :: ds) = some (⟨'P' :: 'O' :: ds⟩, []) := by
    simp only [matchPO, ha.1, ha.2]
    rw [if_pos (by decide), if_pos h6, List.take_of_length_le h20,
      List.drop_eq_nil_of_le h20]
    simp
  rw [hm2]
  simp [poScan_nil]

theorem sortdedup_ext {l1 l2 : List String} (h : ∀ y, y ∈ l1 ↔ y ∈ l2) :
    List.insertionSort (· ≤ ·) l1.dedup = List.insertionSort (· ≤ ·) l2.dedup := by
  have hn1 : (List.insertionSort (· ≤ ·) l1.dedup).Nodup :=
    ((List.perm_insertionSort _ _).nodup_iff).mpr (List.nodup_dedup l1)
  have hn2 : (List.insertionSort (· ≤ ·) l2.dedup).Nodup :=
    ((List.perm_insertionSort _ _).nodup_iff).mpr (List.nodup_dedup l2)
  refine List.eq_of_perm_of_sorted ?_
    (List.sorted_insertionSort _ _) (List.sorted_insertionSort _ _)
  refine (List.perm_ext_iff_of_nodup hn1 hn2).mpr fun y => ?_
  rw [(List.perm_insertionSort _ _).mem_iff, (List.perm_insertionSort _ _).mem_iff,
    List.mem_dedup, List.mem_dedup]
  exact h y

/-- C5: the purchase-order collector yields the strictly-ascending
(lexicographic) deduplicated sequence of the `PO` + 6–20 digit matches:
its output is sorted without duplicates, contains exactly the matched
tokens, is empty (not absent) when nothing matches, is invariant under
appending another copy of an already-matched token, and orders
`"PO1000000"` before `"PO999999"` (lexicographic, not numeric). -/
theorem po_collector_correct :
    (∀ t, List.Sorted (· < ·) (extract_po_numbers t)) ∧
    (∀ t x, x ∈ extract_po_numbers t ↔ x ∈ findAllPO t) ∧
    (∀ t, findAllPO t = [] → extract_po_numbers t = []) ∧
    (∀ t x, x ∈ findAllPO t → extract_po_numbers (t ++ "\n" ++ x) = extract_po_numbers t) ∧
    extract_po_numbers "PO999999 PO1000000" = ["PO1000000", "PO999999"] := by
  have hmem : ∀ (l : List String) (x : String),
      x ∈ List.insertionSort (· ≤ ·) l.dedup ↔ x ∈ l := by
    intro l x
    rw [(List.perm_insertionSort _ _).mem_iff, List.mem_dedup]
  refine ⟨?_, ?_, ?_, ?_, by with_unfolding_all decide⟩
  · intro t
    exact (List.sorted_insertionSort _ _).lt_of_le
      (((List.perm_insertionSort _ _).nodup_iff).mpr (List.nodup_dedup _))
  · intro t x
    exact hmem _ x
  · intro t h
    rw [extract_po_numbers, h]
    rfl
  · intro t x hx
    obtain ⟨ds, rfl, hall, h6, h20⟩ := poScan_shape hx
    have hdata : (t ++ "\n" ++ (⟨'P' :: 'O' :: ds⟩ : String)).data
        = t.data ++ '\n' :: ('P' :: 'O' :: ds) := by
      simp [String.data_append]
    have hfa : findAllPO (t ++ "\n" ++ ⟨'P' :: 'O' :: ds⟩)
        = findAllPO t ++ [⟨'P' :: 'O' :: ds⟩] := by
      show poScan (t ++ "\n" ++ (⟨'P' :: 'O' :: ds⟩ : String)).data = _
      rw [hdata, poScan_append, poScan_token hall h6 h20]
      rfl
    rw [extract_po_numbers, extract_po_numbers, hfa]
    apply sortdedup_ext
    intro y
    simp only [List.mem_append, List.mem_singleton]
    constructor
    · rintro (hy | rfl)
      · exact hy
      · exact hx
    · exact Or.inl

/-- Witness for C5: appending a copy of an already-collected token does
not change the result. -/
theorem po_collector_correct_witness :
    ("PO123456" : String) ∈ findAllPO "xPO123456y" ∧
    extract_po_numbers ("xPO123456y" ++ "\n" ++ "PO123456")
      = extract_po_numbers "xPO123456y" ∧
    extract_po_numbers "xPO123456y" = ["PO123456"] := by
  refine ⟨?_, ?_, by with_unfolding_all decide⟩
  · with_unfolding_all decide
  · exact po_collector_correct.2.2.2.1 "xPO123456y" "PO123456"
      (by with_unfolding_all decide)

end InvoiceGenie
